import Mathlib

/-!
Shallow embedding of `clippy_dev/src/lib.rs` (lint-list extraction helpers and
the delimited-region text replacer), with theorems checking the repository's
specification against the code.

Modelling conventions:
* Rust `&str` / `String` values are Lean `String`s; character-level operations
  are carried out on `String.data : List Char`.
* The two delimiter regexes of `replace_region_in_text` are abstracted as
  line predicates `String → Bool` (the `regex` crate is an external
  dependency; the function only ever calls `is_match` on whole lines).
* The `replacements` closure is pure (`Fn() -> Vec<String>`), so it is
  modelled as its result, a `List String`.
* The `println!` diagnostic of `replace_region_in_text` is modelled by
  returning the `found` flag alongside the text: the notice is printed
  exactly when the returned flag is `false`.
-/

/-- Whitespace class of the `regex` crate's `\s` restricted to ASCII
(space, tab, line feed, vertical tab, form feed, carriage return). -/
def isWhitespaceChar (c : Char) : Bool :=
  c = ' ' || c = '\t' || c = '\n' || c = '\x0b' || c = '\x0c' || c = '\r'

/-- Embedding of Rust `str::split('\n')`: splits a character list at every
line feed, keeping empty pieces (`splitNl` of an empty list is `[[]]`). -/
def splitNl : List Char → List (List Char)
  | [] => [[]]
  | c :: cs =>
    if c = '\n' then [] :: splitNl cs
    else
      match splitNl cs with
      | [] => [[c]]
      | l :: ls => (c :: l) :: ls

/-- Strips a single trailing carriage return, as Rust `str::lines` does to
each line (so that `\r\n` line endings are also recognised). -/
def stripCr (l : List Char) : List Char :=
  if l.getLast? = some '\r' then l.dropLast else l

/-- Embedding of Rust `str::lines()`: split at `\n` with terminator
semantics (a final empty piece produced by a trailing newline is dropped,
and the empty string has no lines), stripping one trailing `\r` per line. -/
def rustLines (s : String) : List String :=
  if s.data = [] then []
  else
    let pieces := splitNl s.data
    let pieces := if pieces.getLast? = some [] then pieces.dropLast else pieces
    pieces.map fun l => String.mk (stripCr l)

/-- Embedding of `new_lines.join("\n")`: joins lines with a single line feed
between consecutive lines and no trailing newline. -/
def joinNl : List String → String
  | [] => ""
  | [l] => l
  | l :: ls => l ++ "\n" ++ joinNl ls

/-- The scanning loop of `replace_region_in_text` (the `for line in lines`
loop): first state component is `in_old_region`, second is `found`.
Returns the accumulated `new_lines` together with the final `found` flag. -/
def replaceRegionLoop (sp ep : String → Bool) (replaceStart : Bool)
    (gen : List String) : List String → Bool → Bool → List String × Bool
  | [], _, found => ([], found)
  | line :: rest, inOld, found =>
    if inOld then
      if ep line then
        let r := replaceRegionLoop sp ep replaceStart gen rest false found
        (gen ++ line :: r.1, r.2)
      else
        replaceRegionLoop sp ep replaceStart gen rest true found
    else if sp line then
      let r := replaceRegionLoop sp ep replaceStart gen rest true true
      ((if replaceStart then [] else [line]) ++ r.1, r.2)
    else
      let r := replaceRegionLoop sp ep replaceStart gen rest false found
      (line :: r.1, r.2)

/-- Embedding of `replace_region_in_text`: splits `text` into lines, runs the
scanning loop from the initial state (outside any region, nothing found),
and joins the resulting lines with single newlines.  The second component
is the `found` flag; the Rust code prints its "regex not found" notice
exactly when this flag is `false`, and returns the joined text either way. -/
def replace_region_in_text (text : String) (sp ep : String → Bool)
    (replaceStart : Bool) (gen : List String) : String × Bool :=
  let r := replaceRegionLoop sp ep replaceStart gen (rustLines text) false false
  (joinNl r.1, r.2)

/-- Decides whether a character is an ASCII uppercase letter. -/
def isAsciiUpperChar (c : Char) : Bool :=
  decide ('A' ≤ c) && decide (c ≤ 'Z')

/-- ASCII lowercasing of a single character.  Lint names captured by
`DEC_CLIPPY_LINT_RE` fall in `[A-Z_][A-Z_0-9]*`, so the ASCII fragment of
Rust's Unicode `str::to_lowercase` is the relevant one. -/
def charToLower (c : Char) : Char :=
  if isAsciiUpperChar c then Char.ofNat (c.toNat + 32) else c

/-- Embedding of `name.to_lowercase()` (ASCII fragment). -/
def rustToLowercase (s : String) : String :=
  String.mk (s.data.map charToLower)

/-- Embedding of `desc.replace("\\\"", "\"")` (Rust `str::replace`): rewrites
every non-overlapping occurrence of backslash-quote to a bare quote,
scanning left to right. -/
def replaceEscQuote : List Char → List Char
  | [] => []
  | [c] => [c]
  | c1 :: c2 :: rest =>
    if c1 = '\\' ∧ c2 = '"' then '"' :: replaceEscQuote rest
    else c1 :: replaceEscQuote (c2 :: rest)

/-- Embedding of `NL_ESCAPE_RE.replace(text, "")` with `NL_ESCAPE_RE` the
regex backslash-newline-`\s*`: `Regex::replace` removes only the leftmost
match, i.e. the first backslash-newline pair together with the greedy run
of whitespace after it; everything past that first match is untouched. -/
def nlEscapeReplaceOnce : List Char → List Char
  | [] => []
  | [c] => [c]
  | c1 :: c2 :: rest =>
    if c1 = '\\' ∧ c2 = '\n' then rest.dropWhile isWhitespaceChar
    else c1 :: nlEscapeReplaceOnce (c2 :: rest)

/-- Lint data parsed from the Clippy source code (struct `Lint`). -/
structure Lint where
  name : String
  group : String
  desc : String
  deprecation : Option String
  module : String
deriving DecidableEq

/-- Embedding of `Lint::new`: lowercases the name and normalises the
description by un-escaping quote escapes (all occurrences) and then
removing the first line-continuation match. -/
def Lint.new (name group desc : String) (deprecation : Option String)
    (module : String) : Lint :=
  { name := rustToLowercase name
    group := group
    desc := String.mk (nlEscapeReplaceOnce (replaceEscQuote desc.data))
    deprecation := deprecation
    module := module }

/-- Embedding of `Lint::is_internal`: `self.group.starts_with("internal")`. -/
def Lint.is_internal (l : Lint) : Bool :=
  "internal".data.isPrefixOf l.group.data

/-- Embedding of `Lint::usable_lints`: keeps the lints whose `deprecation`
is `None` and which are not internal. -/
def Lint.usable_lints (lints : List Lint) : List Lint :=
  lints.filter fun l => l.deprecation.isNone && !l.is_internal

/-- Lexicographic comparison of character lists by code point, the order
underlying Rust's `Ord for String` (UTF-8 byte order coincides with code
point order). -/
def listCharLe : List Char → List Char → Bool
  | [], _ => true
  | _ :: _, [] => false
  | a :: as, b :: bs =>
    if a.toNat < b.toNat then true
    else if b.toNat < a.toNat then false
    else listCharLe as bs

/-- Lexicographic string comparison used by `sort_by_key(|l| l.name.clone())`. -/
def rustStrLe (a b : String) : Bool :=
  listCharLe a.data b.data

/-- The fixed documentation base URL (`DOCS_LINK`). -/
def DOCS_LINK : String :=
  "https://rust-lang-nursery.github.io/rust-clippy/master/index.html"

/-- The formatted link line emitted by `gen_changelog_lint_list` for one
lint name. -/
def changelogLine (name : String) : String :=
  "[`" ++ name ++ "`]: " ++ DOCS_LINK ++ "#" ++ name

/-- Embedding of `gen_changelog_lint_list`: stable-sorts the input by name
(`sort_by_key`, modelled by the stable `insertionSort` over the name
order), then emits one link line per non-internal lint (`filter_map`
returning `None` exactly on internal lints). -/
def gen_changelog_lint_list (lints : List Lint) : List String :=
  let lint_list_sorted :=
    List.insertionSort (fun a b => rustStrLe a.name b.name = true) lints
  (lint_list_sorted.filter fun l => !l.is_internal).map fun l =>
    changelogLine l.name

/-- Embedding of `parse_contents`, parametrised by the capture tuples the
two regexes produce on the file text (the `regex` crate is external):
`clippyCaps` holds the (name, cat, desc) captures of `DEC_CLIPPY_LINT_RE`
in match order, `deprecatedCaps` the (name, desc) captures of
`DEC_DEPRECATED_LINT_RE`.  Primary matches are mapped through `Lint.new`
with no deprecation, deprecated matches with group `"Deprecated"` and
`deprecation` set to the captured description, and the two lists are
chained primary-first. -/
def parse_contents (clippyCaps : List (String × String × String))
    (deprecatedCaps : List (String × String)) (filename : String) : List Lint :=
  (clippyCaps.map fun m => Lint.new m.1 m.2.1 m.2.2 none filename) ++
  (deprecatedCaps.map fun m => Lint.new m.1 "Deprecated" m.2 (some m.2) filename)

example :
    parse_contents
      [("PTR_ARG", "style", "really long \\\n     text"),
       ("DOC_MARKDOWN", "pedantic", "single line")]
      [("SHOULD_ASSERT_EQ", "`assert!()` will be more flexible with RFC 2011")]
      "module_name" =
    [Lint.new "ptr_arg" "style" "really long text" none "module_name",
     Lint.new "doc_markdown" "pedantic" "single line" none "module_name",
     Lint.new "should_assert_eq" "Deprecated"
       "`assert!()` will be more flexible with RFC 2011"
       (some "`assert!()` will be more flexible with RFC 2011") "module_name"] := by
  decide

example :
    Lint.usable_lints
      [Lint.new "should_assert_eq" "Deprecated" "abc" (some "Reason") "module_name",
       Lint.new "should_assert_eq2" "Not Deprecated" "abc" none "module_name",
       Lint.new "should_assert_eq2" "internal" "abc" none "module_name",
       Lint.new "should_assert_eq2" "internal_style" "abc" none "module_name"] =
    [Lint.new "should_assert_eq2" "Not Deprecated" "abc" none "module_name"] := by
  decide

example :
    gen_changelog_lint_list
      [Lint.new "should_assert_eq" "group1" "abc" none "module_name",
       Lint.new "should_assert_eq2" "group2" "abc" none "module_name",
       Lint.new "incorrect_internal" "internal_style" "abc" none "module_name"] =
    [changelogLine "should_assert_eq", changelogLine "should_assert_eq2"] := by
  decide

example :
    (replace_region_in_text "\nabc\n123\n789\ndef\nghi"
      (fun l => l == "abc") (fun l => "def".data.isPrefixOf l.data) false
      ["hello world"]).1 = "\nabc\nhello world\ndef\nghi" := by decide

example :
    (replace_region_in_text "\nabc\n123\n789\ndef\nghi"
      (fun l => l == "abc") (fun l => "def".data.isPrefixOf l.data) true
      ["hello world"]).1 = "\nhello world\ndef\nghi" := by decide

/-! ### Lemmas about line splitting and joining -/

theorem splitNl_ne_nil (cs : List Char) : splitNl cs ≠ [] := by
  induction cs with
  | nil => simp [splitNl]
  | cons c cs ih =>
    rw [splitNl]
    by_cases h : c = '\n'
    · simp [h]
    · rw [if_neg h]
      cases hs : splitNl cs with
      | nil => simp
      | cons l ls => simp

theorem splitNl_no_nl (x : List Char) (hx : '\n' ∉ x) : splitNl x = [x] := by
  induction x with
  | nil => rfl
  | cons c cs ih =>
    have hc : c ≠ '\n' := fun h => hx (h ▸ List.mem_cons_self c cs)
    rw [splitNl, if_neg hc, ih fun h => hx (List.mem_cons_of_mem c h)]

theorem splitNl_append_nl (x r : List Char) (hx : '\n' ∉ x) :
    splitNl (x ++ '\n' :: r) = x :: splitNl r := by
  induction x with
  | nil => simp [splitNl]
  | cons c cs ih =>
    have hc : c ≠ '\n' := fun h => hx (h ▸ List.mem_cons_self c cs)
    rw [List.cons_append, splitNl, if_neg hc,
      ih fun h => hx (List.mem_cons_of_mem c h)]

theorem mem_splitNl_no_nl (cs : List Char) (p : List Char)
    (hp : p ∈ splitNl cs) : '\n' ∉ p := by
  induction cs generalizing p with
  | nil =>
    simp only [splitNl, List.mem_singleton] at hp
    simp [hp]
  | cons c cs ih =>
    rw [splitNl] at hp
    by_cases h : c = '\n'
    · rw [if_pos h] at hp
      rcases List.mem_cons.mp hp with h1 | h1
      · simp [h1]
      · exact ih p h1
    · rw [if_neg h] at hp
      obtain ⟨l, ls, hls⟩ : ∃ l ls, splitNl cs = l :: ls := by
        cases hs : splitNl cs with
        | nil => exact absurd hs (splitNl_ne_nil cs)
        | cons l ls => exact ⟨l, ls, rfl⟩
      rw [hls] at hp
      rcases List.mem_cons.mp hp with h1 | h1
      · subst h1
        intro hmem
        rcases List.mem_cons.mp hmem with h2 | h2
        · exact h h2.symm
        · exact ih l (hls ▸ List.mem_cons_self l ls) h2
      · exact ih p (hls ▸ List.mem_cons_of_mem l h1)

theorem splitNl_joinNl :
    ∀ ls : List String, ls ≠ [] → (∀ x ∈ ls, '\n' ∉ x.data) →
      splitNl (joinNl ls).data = ls.map String.data
  | [], h, _ => absurd rfl h
  | [l], _, hn => by
    rw [joinNl, List.map_singleton]
    exact splitNl_no_nl l.data (hn l (List.mem_singleton_self l))
  | l :: l2 :: ls, _, hn => by
    have ih := splitNl_joinNl (l2 :: ls) (List.cons_ne_nil l2 ls)
      fun x hx => hn x (List.mem_cons_of_mem l hx)
    rw [joinNl]
    show splitNl (l ++ "\n" ++ joinNl (l2 :: ls)).data = _
    rw [String.data_append, String.data_append, List.append_assoc]
    show splitNl (l.data ++ '\n' :: (joinNl (l2 :: ls)).data) = _
    rw [splitNl_append_nl _ _ (hn l (List.mem_cons_self l (l2 :: ls))), ih]
    · simp
    · exact fun h => absurd h (List.cons_ne_nil l2 ls)

theorem string_eq_of_data_eq {a b : String} (h : a.data = b.data) : a = b := by
  cases a
  cases b
  cases h
  rfl

theorem rustLines_joinNl (ls : List String) (h1 : ls ≠ [])
    (h2 : ∀ x ∈ ls, '\n' ∉ x.data)
    (h3 : ∀ x ∈ ls, x.data.getLast? ≠ some '\r')
    (h4 : ls.getLast? ≠ some "") :
    rustLines (joinNl ls) = ls := by
  have hsplit := splitNl_joinNl ls h1 h2
  have hdata : (joinNl ls).data ≠ [] := by
    intro h
    rw [h] at hsplit
    have hmap : ls.map String.data = [[]] := by
      rw [← hsplit]
      rfl
    cases ls with
    | nil => simp at hmap
    | cons x xs =>
      cases xs with
      | nil =>
        have hx : x.data = [] := by simpa using hmap
        exact h4 (by simp [string_eq_of_data_eq (b := "") hx])
      | cons y ys => simp at hmap
  rw [rustLines, if_neg hdata]
  show (if (splitNl (joinNl ls).data).getLast? = some []
      then (splitNl (joinNl ls).data).dropLast
      else splitNl (joinNl ls).data).map (fun l => String.mk (stripCr l)) = ls
  rw [hsplit, List.getLast?_map]
  have hlast : (ls.getLast?).map String.data ≠ some [] := by
    intro h
    cases hls : ls.getLast? with
    | none => rw [hls] at h; simp at h
    | some x =>
      rw [hls] at h
      have hx : x.data = [] := by simpa using h
      exact h4 (by rw [hls, string_eq_of_data_eq (b := "") hx])
  rw [if_neg hlast, List.map_map]
  have heach : ∀ x ∈ ls, ((fun l => String.mk (stripCr l)) ∘ String.data) x = id x := by
    intro x hx
    have hcr : stripCr x.data = x.data := by rw [stripCr, if_neg (h3 x hx)]
    show String.mk (stripCr x.data) = x
    rw [hcr]
  rw [List.map_congr_left heach, List.map_id]

/-! ### Lemmas about the region-replacement scanning loop -/

theorem replaceRegionLoop_found (sp ep : String → Bool) (rs : Bool)
    (gen : List String) (lines : List String) (st : Bool) :
    (replaceRegionLoop sp ep rs gen lines st true).2 = true := by
  induction lines generalizing st with
  | nil => rfl
  | cons line rest ih =>
    rw [replaceRegionLoop]
    split
    · split
      · exact ih false
      · exact ih true
    · split
      · exact ih true
      · exact ih false

theorem replaceRegionLoop_no_sp (sp ep : String → Bool) (rs : Bool)
    (gen : List String) (lines : List String) (found : Bool)
    (h : ∀ l ∈ lines, sp l = false) :
    replaceRegionLoop sp ep rs gen lines false found = (lines, found) := by
  induction lines with
  | nil => rfl
  | cons line rest ih =>
    have hl : sp line = false := h line (List.mem_cons_self line rest)
    rw [replaceRegionLoop, if_neg (by simp), if_neg (by simp [hl]),
      ih fun l hm => h l (List.mem_cons_of_mem line hm)]

theorem replaceRegionLoop_suppress (sp ep : String → Bool) (rs : Bool)
    (gen : List String) (lines rest : List String) (found : Bool)
    (h : ∀ l ∈ lines, ep l = false) :
    replaceRegionLoop sp ep rs gen (lines ++ rest) true found =
      replaceRegionLoop sp ep rs gen rest true found := by
  induction lines with
  | nil => rfl
  | cons line lines ih =>
    have hl : ep line = false := h line (List.mem_cons_self line lines)
    rw [List.cons_append, replaceRegionLoop, if_pos rfl, if_neg (by simp [hl])]
    exact ih fun l hm => h l (List.mem_cons_of_mem line hm)

theorem replaceRegionLoop_copy (sp ep : String → Bool) (rs : Bool)
    (gen : List String) (pre rest : List String) (found : Bool)
    (h : ∀ l ∈ pre, sp l = false) :
    replaceRegionLoop sp ep rs gen (pre ++ rest) false found =
      (pre ++ (replaceRegionLoop sp ep rs gen rest false found).1,
       (replaceRegionLoop sp ep rs gen rest false found).2) := by
  induction pre with
  | nil => rfl
  | cons line pre ih =>
    have hl : sp line = false := h line (List.mem_cons_self line pre)
    rw [List.cons_append, replaceRegionLoop, if_neg (by simp),
      if_neg (by simp [hl]), ih fun l hm => h l (List.mem_cons_of_mem line hm)]
    rfl

theorem replaceRegionLoop_enter (sp ep : String → Bool) (rs : Bool)
    (gen : List String) (s : String) (rest : List String) (found : Bool)
    (hs : sp s = true) :
    replaceRegionLoop sp ep rs gen (s :: rest) false found =
      ((if rs then [] else [s]) ++ (replaceRegionLoop sp ep rs gen rest true true).1,
       (replaceRegionLoop sp ep rs gen rest true true).2) := by
  rw [replaceRegionLoop, if_neg (by simp), if_pos hs]

theorem replaceRegionLoop_close (sp ep : String → Bool) (rs : Bool)
    (gen : List String) (e : String) (rest : List String) (found : Bool)
    (he : ep e = true) :
    replaceRegionLoop sp ep rs gen (e :: rest) true found =
      (gen ++ e :: (replaceRegionLoop sp ep rs gen rest false found).1,
       (replaceRegionLoop sp ep rs gen rest false found).2) := by
  rw [replaceRegionLoop, if_pos rfl, if_pos he]

theorem replaceRegionLoop_region (sp ep : String → Bool) (rs : Bool)
    (gen : List String) (pre mid rest : List String) (s e : String)
    (found : Bool)
    (hpre : ∀ l ∈ pre, sp l = false) (hs : sp s = true)
    (hmid : ∀ l ∈ mid, ep l = false) (he : ep e = true) :
    replaceRegionLoop sp ep rs gen (pre ++ (s :: (mid ++ (e :: rest)))) false found =
      (pre ++ (if rs then [] else [s]) ++ gen ++
        (e :: (replaceRegionLoop sp ep rs gen rest false true).1),
       (replaceRegionLoop sp ep rs gen rest false true).2) := by
  rw [replaceRegionLoop_copy sp ep rs gen pre _ found hpre,
    replaceRegionLoop_enter sp ep rs gen s _ found hs,
    replaceRegionLoop_suppress sp ep rs gen mid _ true hmid,
    replaceRegionLoop_close sp ep rs gen e _ true he]
  simp [List.append_assoc]

/-! ### Lemmas about lowercasing -/

theorem char_le_iff_toNat {a b : Char} : a ≤ b ↔ a.toNat ≤ b.toNat := Iff.rfl

theorem char_toNat_ofNat {n : Nat} (h : n < 55296) : (Char.ofNat n).toNat = n := by
  rw [Char.ofNat, dif_pos (Or.inl h)]
  rfl

theorem isAsciiUpperChar_charToLower (c : Char) :
    isAsciiUpperChar (charToLower c) = false := by
  unfold charToLower
  by_cases h : isAsciiUpperChar c = true
  · rw [if_pos h]
    unfold isAsciiUpperChar at h ⊢
    rw [Bool.and_eq_true, decide_eq_true_iff, decide_eq_true_iff] at h
    have h1 : 65 ≤ c.toNat := char_le_iff_toNat.mp h.1
    have h2 : c.toNat ≤ 90 := char_le_iff_toNat.mp h.2
    have hv : (Char.ofNat (c.toNat + 32)).toNat = c.toNat + 32 :=
      char_toNat_ofNat (by omega)
    have hz : ¬(Char.ofNat (c.toNat + 32) ≤ 'Z') := by
      rw [char_le_iff_toNat, hv]
      show ¬(c.toNat + 32 ≤ 90)
      omega
    simp [hz]
  · rw [if_neg h]
    exact Bool.eq_false_iff.mpr h

/-! ### Lemmas about the description normalisation -/

theorem replaceEscQuote_append (p r : List Char) (hp : '\\' ∉ p) :
    replaceEscQuote (p ++ r) = p ++ replaceEscQuote r := by
  induction p with
  | nil => rfl
  | cons c p ih =>
    have hc : c ≠ '\\' := fun h => hp (h ▸ List.mem_cons_self c p)
    have hp' : '\\' ∉ p := fun h => hp (List.mem_cons_of_mem c h)
    rw [List.cons_append]
    cases hpr : p ++ r with
    | nil =>
      have hpnil : p = [] := (List.append_eq_nil.mp hpr).1
      have hrnil : r = [] := (List.append_eq_nil.mp hpr).2
      subst hpnil
      subst hrnil
      rfl
    | cons d tl =>
      calc replaceEscQuote (c :: d :: tl)
          = c :: replaceEscQuote (d :: tl) := by
              rw [replaceEscQuote, if_neg fun hand => hc hand.1]
        _ = c :: replaceEscQuote (p ++ r) := by rw [hpr]
        _ = c :: (p ++ replaceEscQuote r) := by rw [ih hp']
        _ = (c :: p) ++ replaceEscQuote r := by rw [List.cons_append]

theorem nlEscapeReplaceOnce_append (p r : List Char) (hp : '\\' ∉ p) :
    nlEscapeReplaceOnce (p ++ r) = p ++ nlEscapeReplaceOnce r := by
  induction p with
  | nil => rfl
  | cons c p ih =>
    have hc : c ≠ '\\' := fun h => hp (h ▸ List.mem_cons_self c p)
    have hp' : '\\' ∉ p := fun h => hp (List.mem_cons_of_mem c h)
    rw [List.cons_append]
    cases hpr : p ++ r with
    | nil =>
      have hpnil : p = [] := (List.append_eq_nil.mp hpr).1
      have hrnil : r = [] := (List.append_eq_nil.mp hpr).2
      subst hpnil
      subst hrnil
      rfl
    | cons d tl =>
      calc nlEscapeReplaceOnce (c :: d :: tl)
          = c :: nlEscapeReplaceOnce (d :: tl) := by
              rw [nlEscapeReplaceOnce, if_neg fun hand => hc hand.1]
        _ = c :: nlEscapeReplaceOnce (p ++ r) := by rw [hpr]
        _ = c :: (p ++ nlEscapeReplaceOnce r) := by rw [ih hp']
        _ = (c :: p) ++ nlEscapeReplaceOnce r := by rw [List.cons_append]

theorem replaceEscQuote_cons_esc (r : List Char) :
    replaceEscQuote ('\\' :: '"' :: r) = '"' :: replaceEscQuote r := by
  rw [replaceEscQuote, if_pos ⟨rfl, rfl⟩]

theorem nlEscapeReplaceOnce_cons_esc (r : List Char) :
    nlEscapeReplaceOnce ('\\' :: '\n' :: r) = r.dropWhile isWhitespaceChar := by
  rw [nlEscapeReplaceOnce, if_pos ⟨rfl, rfl⟩]

/-! ### Lemmas about the lexicographic name order -/

theorem listCharLe_total (a b : List Char) :
    listCharLe a b = true ∨ listCharLe b a = true := by
  induction a generalizing b with
  | nil => left; rfl
  | cons x xs ih =>
    cases b with
    | nil => right; rfl
    | cons y ys =>
      rw [listCharLe, listCharLe]
      by_cases h1 : x.toNat < y.toNat
      · left
        rw [if_pos h1]
      · by_cases h2 : y.toNat < x.toNat
        · right
          rw [if_pos h2]
        · rw [if_neg h1, if_neg h2, if_neg h2, if_neg h1]
          exact ih ys

theorem listCharLe_trans (a : List Char) :
    ∀ b c : List Char, listCharLe a b = true → listCharLe b c = true →
      listCharLe a c = true := by
  induction a with
  | nil => intro b c _ _; rfl
  | cons x xs ih =>
    intro b c h1 h2
    cases b with
    | nil => simp [listCharLe] at h1
    | cons y ys =>
      cases c with
      | nil => simp [listCharLe] at h2
      | cons z zs =>
        rw [listCharLe] at h1 h2 ⊢
        split_ifs at h1 h2 ⊢ <;>
          first
            | rfl
            | exact ih ys zs h1 h2
            | omega

/-! ### Lemmas about line membership in rustLines -/

theorem mem_rustLines_no_nl (t : String) (x : String) (hx : x ∈ rustLines t) :
    '\n' ∉ x.data := by
  rw [rustLines] at hx
  by_cases h : t.data = []
  · rw [if_pos h] at hx
    simp at hx
  · rw [if_neg h] at hx
    obtain ⟨p, hp, hxp⟩ := List.mem_map.mp hx
    have hpmem : p ∈ splitNl t.data := by
      by_cases hl : (splitNl t.data).getLast? = some []
      · rw [if_pos hl] at hp
        exact List.dropLast_subset _ hp
      · rw [if_neg hl] at hp
        exact hp
    have hnp : '\n' ∉ p := mem_splitNl_no_nl t.data p hpmem
    rw [← hxp]
    show '\n' ∉ stripCr p
    intro hmem
    apply hnp
    rw [stripCr] at hmem
    by_cases hcr : p.getLast? = some '\r'
    · rw [if_pos hcr] at hmem
      exact List.dropLast_subset p hmem
    · rw [if_neg hcr] at hmem
      exact hmem

/-! ### Claim theorems -/

/-- C6: on the text with lines "", "abc", "123", "789", "def", "ghi", a
start pattern matching exactly the line "abc", an end pattern matching
lines beginning with "def" and a generator returning the single line
"hello world", `replace_region_in_text` returns the text with the region
interior replaced, keeping the start line when `replace_start` is false
and dropping it when `replace_start` is true. -/
theorem c6_replace_region_example :
    (replace_region_in_text "\nabc\n123\n789\ndef\nghi"
      (fun l => l == "abc") (fun l => "def".data.isPrefixOf l.data) false
      ["hello world"]).1 = "\nabc\nhello world\ndef\nghi" ∧
    (replace_region_in_text "\nabc\n123\n789\ndef\nghi"
      (fun l => l == "abc") (fun l => "def".data.isPrefixOf l.data) true
      ["hello world"]).1 = "\nhello world\ndef\nghi" :=
  ⟨by decide, by decide⟩

/-- C9: if no line of the text matches the start pattern, the returned
text is the input unchanged except for splitting into lines and rejoining
with single newlines, and the returned `found` flag is `false` — exactly
the condition under which the Rust code prints its non-fatal notice. -/
theorem c9_no_start_match (text : String) (sp ep : String → Bool)
    (rs : Bool) (gen : List String)
    (h : ∀ l ∈ rustLines text, sp l = false) :
    replace_region_in_text text sp ep rs gen =
      (joinNl (rustLines text), false) := by
  rw [replace_region_in_text]
  show (joinNl (replaceRegionLoop sp ep rs gen (rustLines text) false false).1,
        (replaceRegionLoop sp ep rs gen (rustLines text) false false).2) = _
  rw [replaceRegionLoop_no_sp sp ep rs gen (rustLines text) false h]

/-- Witness for C9 at a concrete input: the start pattern matches no line
of "xyz(newline)uvw", so the text is returned unchanged with the flag
signalling the diagnostic. -/
theorem c9_no_start_match_witness :
    replace_region_in_text "xyz\nuvw" (fun l => l == "abc")
        (fun l => l == "def") false ["gen"] =
      (joinNl (rustLines "xyz\nuvw"), false) :=
  c9_no_start_match "xyz\nuvw" (fun l => l == "abc") (fun l => l == "def")
    false ["gen"] (by decide)

/-- C10: if the first line matching the start pattern is followed by no
line matching the end pattern, every line after the start line is
suppressed: the output consists of the lines before the start line plus
(when `replace_start` is false) the start line itself, the generator's
output never appears for any generator, and the `found` flag is `true`,
so no diagnostic is printed for the missing end delimiter. -/
theorem c10_unterminated_region (text : String) (sp ep : String → Bool)
    (rs : Bool) (gen : List String) (pre rest : List String) (s : String)
    (hsplit : rustLines text = pre ++ (s :: rest))
    (hpre : ∀ l ∈ pre, sp l = false) (hs : sp s = true)
    (hrest : ∀ l ∈ rest, ep l = false) :
    replace_region_in_text text sp ep rs gen =
      (joinNl (pre ++ (if rs then [] else [s])), true) := by
  rw [replace_region_in_text]
  show (joinNl (replaceRegionLoop sp ep rs gen (rustLines text) false false).1,
        (replaceRegionLoop sp ep rs gen (rustLines text) false false).2) = _
  rw [hsplit, replaceRegionLoop_copy sp ep rs gen pre _ false hpre,
    replaceRegionLoop_enter sp ep rs gen s _ false hs]
  have hsup := replaceRegionLoop_suppress sp ep rs gen rest [] true hrest
  rw [List.append_nil] at hsup
  rw [hsup]
  have hnil : replaceRegionLoop sp ep rs gen [] true true = ([], true) := rfl
  rw [hnil]
  simp

/-- Witness for C10 at a concrete input: the region opened by "abc" is
never closed, so everything after "abc" is dropped and no notice is
signalled. -/
theorem c10_unterminated_region_witness :
    replace_region_in_text "pp\nabc\n123\n456" (fun l => l == "abc")
        (fun l => l == "def") false ["gen"] =
      (joinNl (["pp"] ++ (if false then [] else ["abc"])), true) :=
  c10_unterminated_region "pp\nabc\n123\n456" (fun l => l == "abc")
    (fun l => l == "def") false ["gen"] ["pp"] ["123", "456"] "abc"
    (by decide) (by decide) (by decide) (by decide)

/-- C1 counterexample: on the text with two delimited regions
"abc/123/def/abc/456/def" (slashes standing for newlines), with a start
pattern matching "abc" and an end pattern matching "def", the line "456"
inside the second region is replaced as well, so after the first region
has been closed the remaining lines are NOT all emitted unchanged. -/
theorem c1_counterexample :
    (replace_region_in_text "abc\n123\ndef\nabc\n456\ndef"
        (fun l => l == "abc") (fun l => l == "def") false ["X"]).1 =
      "abc\nX\ndef\nabc\nX\ndef" ∧
    "abc\nX\ndef\nabc\nX\ndef" ≠ "abc\nX\ndef\nabc\n456\ndef" :=
  ⟨by decide, by decide⟩

/-- C1 (amended): after the first delimited region has been closed by a
line matching the end pattern, the scanner returns to the outside-region
state and processes the remaining lines exactly as it processes a fresh
text (with the found flag already set): a later line matching the start
pattern re-enters a region, whose interior is then replaced in the same
way rather than being passed through unchanged. -/
theorem c1_after_first_region_fresh_scan (text : String)
    (sp ep : String → Bool) (rs : Bool) (gen : List String)
    (pre mid rest : List String) (s e : String)
    (hsplit : rustLines text = pre ++ (s :: (mid ++ (e :: rest))))
    (hpre : ∀ l ∈ pre, sp l = false) (hs : sp s = true)
    (hmid : ∀ l ∈ mid, ep l = false) (he : ep e = true) :
    replace_region_in_text text sp ep rs gen =
      (joinNl (pre ++ (if rs then [] else [s]) ++ gen ++
        (e :: (replaceRegionLoop sp ep rs gen rest false true).1)), true) := by
  rw [replace_region_in_text]
  show (joinNl (replaceRegionLoop sp ep rs gen (rustLines text) false false).1,
        (replaceRegionLoop sp ep rs gen (rustLines text) false false).2) = _
  rw [hsplit,
    replaceRegionLoop_region sp ep rs gen pre mid rest s e false hpre hs hmid he,
    replaceRegionLoop_found sp ep rs gen rest false]

/-- Witness for the amended C1 on a concrete two-region text: the tail
after the first region is scanned afresh, so the second region's interior
"456" is replaced by the generator output as well. -/
theorem c1_after_first_region_fresh_scan_witness :
    replace_region_in_text "abc\n123\ndef\nabc\n456\ndef"
        (fun l => l == "abc") (fun l => l == "def") false ["X"] =
      (joinNl ([] ++ (if false then [] else ["abc"]) ++ ["X"] ++
        ("def" :: (replaceRegionLoop (fun l => l == "abc")
          (fun l => l == "def") false ["X"] ["abc", "456", "def"]
          false true).1)), true) :=
  c1_after_first_region_fresh_scan "abc\n123\ndef\nabc\n456\ndef"
    (fun l => l == "abc") (fun l => l == "def") false ["X"]
    [] ["123"] ["abc", "456", "def"] "abc" "def"
    (by decide) (by decide) (by decide) (by decide) (by decide)

/-- C7: round trip for a text with exactly one delimited region.  If the
text splits into lines as pre, start line, interior, end line, post, with
the patterns matching only as indicated, and the intermediate generator
gen1 emits proper lines (no embedded newline, no trailing carriage
return, none matching the end pattern, the region end line and post not
ending in an empty last line), then replacing the region with gen1 and
then replacing it again with the original interior lines reproduces the
original text's lines joined by single newlines. -/
theorem c7_region_replace_round_trip (text : String) (sp ep : String → Bool)
    (gen1 : List String) (pre mid post : List String) (s e : String)
    (hsplit : rustLines text = pre ++ (s :: (mid ++ (e :: post))))
    (hpre : ∀ l ∈ pre, sp l = false) (hs : sp s = true)
    (hmid : ∀ l ∈ mid, ep l = false) (he : ep e = true)
    (hpost : ∀ l ∈ post, sp l = false)
    (hg_nl : ∀ l ∈ gen1, '\n' ∉ l.data)
    (hg_cr : ∀ l ∈ gen1, l.data.getLast? ≠ some '\r')
    (hg_ep : ∀ l ∈ gen1, ep l = false)
    (hcr : ∀ l ∈ rustLines text, l.data.getLast? ≠ some '\r')
    (hlast : (e :: post).getLast? ≠ some "") :
    (replace_region_in_text
        (replace_region_in_text text sp ep false gen1).1 sp ep false mid).1 =
      joinNl (rustLines text) := by
  have hmem : ∀ x, (x ∈ pre ∨ x = s ∨ x = e ∨ x ∈ post) → x ∈ rustLines text := by
    intro x hx
    rw [hsplit]
    simp only [List.mem_append, List.mem_cons]
    tauto
  have hinner : (replace_region_in_text text sp ep false gen1).1 =
      joinNl (pre ++ [s] ++ gen1 ++ (e :: post)) := by
    rw [replace_region_in_text]
    show joinNl
        (replaceRegionLoop sp ep false gen1 (rustLines text) false false).1 = _
    rw [hsplit,
      replaceRegionLoop_region sp ep false gen1 pre mid post s e false
        hpre hs hmid he,
      replaceRegionLoop_no_sp sp ep false gen1 post true hpost]
    rfl
  have hno_nl : ∀ x ∈ pre ++ [s] ++ gen1 ++ (e :: post), '\n' ∉ x.data := by
    intro x hx
    have hx5 : x ∈ pre ∨ x = s ∨ x ∈ gen1 ∨ x = e ∨ x ∈ post := by
      simp only [List.mem_append, List.mem_cons, List.mem_singleton] at hx
      tauto
    rcases hx5 with h | h | h | h | h
    · exact mem_rustLines_no_nl text x (hmem x (Or.inl h))
    · exact mem_rustLines_no_nl text x (hmem x (Or.inr (Or.inl h)))
    · exact hg_nl x h
    · exact mem_rustLines_no_nl text x (hmem x (Or.inr (Or.inr (Or.inl h))))
    · exact mem_rustLines_no_nl text x (hmem x (Or.inr (Or.inr (Or.inr h))))
  have hno_cr : ∀ x ∈ pre ++ [s] ++ gen1 ++ (e :: post),
      x.data.getLast? ≠ some '\r' := by
    intro x hx
    have hx5 : x ∈ pre ∨ x = s ∨ x ∈ gen1 ∨ x = e ∨ x ∈ post := by
      simp only [List.mem_append, List.mem_cons, List.mem_singleton] at hx
      tauto
    rcases hx5 with h | h | h | h | h
    · exact hcr x (hmem x (Or.inl h))
    · exact hcr x (hmem x (Or.inr (Or.inl h)))
    · exact hg_cr x h
    · exact hcr x (hmem x (Or.inr (Or.inr (Or.inl h))))
    · exact hcr x (hmem x (Or.inr (Or.inr (Or.inr h))))
  have hlast1 : (pre ++ [s] ++ gen1 ++ (e :: post)).getLast? ≠ some "" := by
    cases hv : (e :: post).getLast? with
    | none => simp at hv
    | some v =>
      rw [List.getLast?_append, hv]
      rw [hv] at hlast
      simpa using hlast
  have hlines1 : rustLines (joinNl (pre ++ [s] ++ gen1 ++ (e :: post))) =
      pre ++ [s] ++ gen1 ++ (e :: post) :=
    rustLines_joinNl _ (by simp) hno_nl hno_cr hlast1
  rw [hinner, replace_region_in_text]
  show joinNl
      (replaceRegionLoop sp ep false mid
        (rustLines (joinNl (pre ++ [s] ++ gen1 ++ (e :: post)))) false false).1 = _
  rw [hlines1]
  have hre : pre ++ [s] ++ gen1 ++ (e :: post) =
      pre ++ (s :: (gen1 ++ (e :: post))) := by
    simp [List.append_assoc]
  rw [hre,
    replaceRegionLoop_region sp ep false mid pre gen1 post s e false
      hpre hs hg_ep he,
    replaceRegionLoop_no_sp sp ep false mid post true hpost, hsplit]
  show joinNl (pre ++ [s] ++ mid ++ (e :: post)) =
    joinNl (pre ++ (s :: (mid ++ (e :: post))))
  congr 1
  simp [List.append_assoc]

/-- Witness for C7 on a concrete one-region text: replacing the interior
"123" by "zzz" and then replacing it back restores the original text. -/
theorem c7_region_replace_round_trip_witness :
    (replace_region_in_text
        (replace_region_in_text "abc\n123\ndef" (fun l => l == "abc")
          (fun l => l == "def") false ["zzz"]).1
        (fun l => l == "abc") (fun l => l == "def") false ["123"]).1 =
      joinNl (rustLines "abc\n123\ndef") :=
  c7_region_replace_round_trip "abc\n123\ndef" (fun l => l == "abc")
    (fun l => l == "def") ["zzz"] [] ["123"] [] "abc" "def"
    (by decide) (by decide) (by decide) (by decide) (by decide) (by decide)
    (by decide) (by decide) (by decide) (by decide) (by decide)

theorem replaceEscQuote_bs_nl (r : List Char) :
    replaceEscQuote ('\\' :: '\n' :: r) = '\\' :: '\n' :: replaceEscQuote r := by
  rw [replaceEscQuote, if_neg (by simp)]
  rw [show ('\n' :: r) = ['\n'] ++ r from rfl,
    replaceEscQuote_append ['\n'] r (by simp), List.singleton_append]

/-- C2 counterexample: for the captured description consisting of the
characters a, backslash, newline, space, b, backslash, newline, space, c
(two line continuations), `Lint::new` collapses only the first
continuation: the description becomes "ab" followed by a literal
backslash-newline-space and "c", not the fully joined "abc" the claim
requires. -/
theorem c2_counterexample :
    (Lint.new "X" "g" "a\\\n b\\\n c" none "m").desc = "ab\\\n c" ∧
    (Lint.new "X" "g" "a\\\n b\\\n c" none "m").desc ≠ "abc" :=
  ⟨by decide, by decide⟩

/-- C2 (amended): `Lint::new` produces the desc field by first un-escaping
every embedded quote-escape sequence and then collapsing only the first
(leftmost) line-continuation sequence — a backslash-newline pair together
with the run of whitespace after it; the remainder of the string keeps any
later continuation sequences, with only the quote-unescaping applied.
Stated for a description that decomposes as a backslash-free part p1, a
quote escape, a backslash-free part p2, the first continuation, and an
arbitrary remainder r. -/
theorem c2_unescape_then_first_continuation (n g m : String)
    (d : Option String) (p1 p2 r : List Char)
    (h1 : '\\' ∉ p1) (h2 : '\\' ∉ p2) :
    (Lint.new n g
        (String.mk (p1 ++ ('\\' :: '"' :: (p2 ++ ('\\' :: '\n' :: r))))) d
        m).desc =
      String.mk (p1 ++ ('"' ::
        (p2 ++ (replaceEscQuote r).dropWhile isWhitespaceChar))) := by
  show String.mk (nlEscapeReplaceOnce (replaceEscQuote
      (p1 ++ ('\\' :: '"' :: (p2 ++ ('\\' :: '\n' :: r)))))) = _
  rw [replaceEscQuote_append p1 _ h1, replaceEscQuote_cons_esc,
    replaceEscQuote_append p2 _ h2, replaceEscQuote_bs_nl]
  have hq : '\\' ∉ p1 ++ ('"' :: p2) := by
    intro hmem
    rcases List.mem_append.mp hmem with h | h
    · exact h1 h
    · rcases List.mem_cons.mp h with h | h
      · exact absurd h.symm (by decide)
      · exact h2 h
  rw [show p1 ++ ('"' :: (p2 ++ ('\\' :: '\n' :: replaceEscQuote r))) =
      (p1 ++ ('"' :: p2)) ++ ('\\' :: '\n' :: replaceEscQuote r) by
    simp [List.append_assoc],
    nlEscapeReplaceOnce_append _ _ hq, nlEscapeReplaceOnce_cons_esc]
  congr 1
  simp [List.append_assoc]

/-- Witness for the amended C2 at a concrete description: the quote escape
is un-escaped and the single continuation removed along with its leading
whitespace. -/
theorem c2_unescape_then_first_continuation_witness :
    (Lint.new "n" "g"
        (String.mk (['a'] ++ ('\\' :: '"' :: (['b'] ++
          ('\\' :: '\n' :: [' ', 'c']))))) none "m").desc =
      String.mk (['a'] ++ ('"' ::
        (['b'] ++ (replaceEscQuote [' ', 'c']).dropWhile isWhitespaceChar))) :=
  c2_unescape_then_first_continuation "n" "g" "m" none ['a'] ['b'] [' ', 'c']
    (by decide) (by decide)

/-- C3: for all capture lists, `parse_contents` yields the primary-pattern
records followed by the deprecated-pattern records: the first block has
length equal to the number of primary captures and every record in it has
no deprecation; the second block has one record per deprecated capture,
each with group "Deprecated" and deprecation equal to Some of the captured
description. -/
theorem c3_parse_contents_shape (p : List (String × String × String))
    (q : List (String × String)) (filename : String) :
    ∃ prim depr : List Lint,
      parse_contents p q filename = prim ++ depr ∧
      prim.length = p.length ∧
      depr.length = q.length ∧
      (prim.all fun l => l.deprecation.isNone) = true ∧
      (depr.all fun l => l.group == "Deprecated") = true ∧
      depr.map Lint.deprecation = q.map (fun m => some m.2) := by
  refine ⟨(p.map fun m : String × String × String =>
      Lint.new m.1 m.2.1 m.2.2 none filename),
    (q.map fun m : String × String =>
      Lint.new m.1 "Deprecated" m.2 (some m.2) filename),
    rfl, ?_, ?_, ?_, ?_, ?_⟩
  · exact List.length_map p _
  · exact List.length_map q _
  · apply List.all_eq_true.mpr
    intro x hx
    obtain ⟨m, hm, rfl⟩ := List.mem_map.mp hx
    rfl
  · apply List.all_eq_true.mpr
    intro x hx
    obtain ⟨m, hm, rfl⟩ := List.mem_map.mp hx
    rfl
  · rw [List.map_map]
    rfl

/-- C4: `usable_lints` is exactly the order-preserving filter that drops a
record iff its deprecation is present OR its group starts with "internal"
(the two exclusion conditions combined with logical OR), and it is the
identity on inputs containing no such record. -/
theorem c4_usable_lints_or_filter (lints : List Lint) :
    Lint.usable_lints lints =
      (lints.filter fun l => !(l.deprecation.isSome || l.is_internal)) ∧
    ((∀ l ∈ lints, ¬(l.deprecation.isSome = true ∨ l.is_internal = true)) →
      Lint.usable_lints lints = lints) := by
  constructor
  · rw [Lint.usable_lints]
    apply List.filter_congr
    intro l _
    cases hd : l.deprecation <;> cases hi : l.is_internal <;> simp [hi]
  · intro h
    rw [Lint.usable_lints]
    refine List.filter_eq_self.mpr fun l hl => ?_
    have hx := h l hl
    cases hd : l.deprecation <;> cases hi : l.is_internal <;>
      simp [hi] <;> simp [hd, hi] at hx

/-- Witness for C4 at a concrete input with no deprecated and no internal
record: `usable_lints` is the identity. -/
theorem c4_usable_lints_or_filter_witness :
    Lint.usable_lints [Lint.new "good_lint" "style" "d" none "m"] =
      [Lint.new "good_lint" "style" "d" none "m"] :=
  (c4_usable_lints_or_filter [Lint.new "good_lint" "style" "d" none "m"]).2
    (by decide)

/-- C5: `gen_changelog_lint_list` emits one link line per record whose
group does not start with "internal", in ascending lexicographic order of
the record names: the output is obtained from some name-sorted permutation
of the input by filtering out only internal records (a present deprecation
does not exclude a record) and formatting each remaining name, and its
length equals the number of non-internal records of the input. -/
theorem c5_changelog_sorted_no_internal (lints : List Lint) :
    ∃ sorted : List Lint,
      sorted.Perm lints ∧
      sorted.Pairwise (fun a b => rustStrLe a.name b.name = true) ∧
      gen_changelog_lint_list lints =
        (sorted.filter fun l => !l.is_internal).map
          (fun l => changelogLine l.name) ∧
      (gen_changelog_lint_list lints).length =
        (lints.filter fun l => !l.is_internal).length := by
  refine ⟨List.insertionSort (fun a b => rustStrLe a.name b.name = true) lints,
    List.perm_insertionSort _ lints, ?_, rfl, ?_⟩
  · haveI : IsTotal Lint (fun a b => rustStrLe a.name b.name = true) :=
      ⟨fun a b => listCharLe_total a.name.data b.name.data⟩
    haveI : IsTrans Lint (fun a b => rustStrLe a.name b.name = true) :=
      ⟨fun a b c h1 h2 =>
        listCharLe_trans a.name.data b.name.data c.name.data h1 h2⟩
    exact List.sorted_insertionSort _ lints
  · have hp : (List.insertionSort
        (fun a b => rustStrLe a.name b.name = true) lints).Perm lints :=
      List.perm_insertionSort _ lints
    show (((List.insertionSort
        (fun a b => rustStrLe a.name b.name = true) lints).filter
          fun l => !l.is_internal).map fun l => changelogLine l.name).length = _
    rw [List.length_map]
    exact (hp.filter fun l => !l.is_internal).length_eq

/-- Witness for C5 at a concrete two-element input given in descending
name order with one internal record: the sorted permutation exists and the
output drops exactly the internal record. -/
theorem c5_changelog_sorted_no_internal_witness :
    ∃ sorted : List Lint,
      sorted.Perm [Lint.new "b_lint" "style" "d" none "m",
        Lint.new "a_lint" "internal" "d" (some "r") "m"] ∧
      sorted.Pairwise (fun a b => rustStrLe a.name b.name = true) ∧
      gen_changelog_lint_list [Lint.new "b_lint" "style" "d" none "m",
          Lint.new "a_lint" "internal" "d" (some "r") "m"] =
        (sorted.filter fun l => !l.is_internal).map
          (fun l => changelogLine l.name) ∧
      (gen_changelog_lint_list [Lint.new "b_lint" "style" "d" none "m",
          Lint.new "a_lint" "internal" "d" (some "r") "m"]).length =
        ([Lint.new "b_lint" "style" "d" none "m",
          Lint.new "a_lint" "internal" "d" (some "r") "m"].filter
            fun l => !l.is_internal).length :=
  c5_changelog_sorted_no_internal [Lint.new "b_lint" "style" "d" none "m",
    Lint.new "a_lint" "internal" "d" (some "r") "m"]

/-- C8: for every input name string, the name field of the record
constructed by `Lint::new` contains no uppercase ASCII letter. -/
theorem c8_name_fully_lowercase (name group desc : String)
    (dep : Option String) (module : String) :
    ((Lint.new name group desc dep module).name.data.all
      fun c => !isAsciiUpperChar c) = true := by
  show ((rustToLowercase name).data.all fun c => !isAsciiUpperChar c) = true
  rw [rustToLowercase]
  show ((name.data.map charToLower).all fun c => !isAsciiUpperChar c) = true
  apply List.all_eq_true.mpr
  intro c hc
  obtain ⟨d, hd, rfl⟩ := List.mem_map.mp hc
  show (!isAsciiUpperChar (charToLower d)) = true
  rw [isAsciiUpperChar_charToLower]
  rfl
